import Mathlib

/-!
Shallow embedding of the decomposition-based time-series augmentation
operators of this repository: `dominant_shuffle` (src/fdda/dshuffle.py),
`emd_augmentation` and `mix_augmentation` (src/fdda/staug.py), and
`WaveAug.augment` / `WaveAug.augment_multi` (src/pdda/augments/wave_aug.py).

Modelling conventions:
* Array values are idealized as rationals (`ℚ`); numpy float arithmetic is
  modelled as exact field arithmetic.  The float32 cast performed by
  `np.empty_like(signal, dtype=np.float32)` is modelled by an abstract
  rounding function `f32 : ℚ → ℚ` applied at column-store time, and the
  dtype itself is tracked by an explicit `DType` tag.
* A rank-1 array of length T is `Arr.r1 v` with `v.length = T`; a rank-2
  array of shape (T, F) is `Arr.r2 cols` holding its F feature columns,
  each of length T (all the operators loop over the feature axis, so the
  column-major view matches the source's per-column processing exactly).
* The external transform primitives (one-sided FFT pair, EMD solver,
  wavelet decomposition/reconstruction pair) are external collaborators of
  the repository; they enter as function parameters, with their documented
  contracts (for instance `np.fft.irfft(x, n=T)` returning length `T`)
  as hypotheses where a claim needs them.
* All random draws (np.random.choice / rand / beta / uniform) enter as
  explicit function parameters giving the drawn values.
* Fallible numpy operations (shape-mismatch ValueError, list IndexError,
  broadcast failure on column assignment) are modelled with `Except Err`.
-/

attribute [local semireducible] Rat.mul Rat.add Rat.sub Rat.inv

/-- Errors an operator can raise: the explicit ValueError on mismatched
input shapes, numpy's broadcast failure when a column assignment receives
the wrong length, and python's IndexError on list indexing. -/
inductive Err where
  | shapeMismatch
  | broadcastFail
  | indexErr
deriving DecidableEq, Repr

/-- Numpy dtype tag, tracked where a claim talks about dtypes. -/
inductive DType where
  | float32
  | float64
  | other
deriving DecidableEq, Repr

/-- A rank-1 or rank-2 real numpy array.  Rank 2 is stored as the list of
feature columns: `r2 cols` has shape (T, F) with `F = cols.length` and
each column of length `T`. -/
inductive Arr where
  | r1 (v : List ℚ)
  | r2 (cols : List (List ℚ))
deriving DecidableEq, Repr

namespace Arr

/-- The numpy `.shape` tuple (as a list, so rank = length). -/
def shape : Arr → List Nat
  | r1 v => [v.length]
  | r2 cols => [(cols.headD []).length, cols.length]

/-- Rectangularity: a rank-2 array has all columns of equal length (numpy
arrays are always rectangular; this is the validity invariant). -/
def Wf : Arr → Prop
  | r1 _ => True
  | r2 cols => ∀ c ∈ cols, c.length = (cols.headD []).length

instance : DecidablePred Arr.Wf := fun a =>
  match a with
  | .r1 _ => .isTrue trivial
  | .r2 cols => List.decidableBAll _ cols

/-- All elements of the array, flattened. -/
def elems : Arr → List ℚ
  | r1 v => v
  | r2 cols => cols.flatten

end Arr

/-- The rank-normalization step `if signal.ndim == 1: signal =
signal.reshape(-1, 1)`: every operator then works on the list of feature
columns. -/
def toCols : Arr → List (List ℚ)
  | .r1 v => [v]
  | .r2 cols => cols

/-- The shape-restoration step: `if len(original_shape) == 1:
augmented_signal = augmented_signal.flatten()`. -/
def restore : Arr → List (List ℚ) → Arr
  | .r1 _, cols => .r1 (cols.headD [])
  | .r2 _, cols => .r2 cols

/-- `time_steps`: the length of the time axis after rank normalization. -/
def rows (a : Arr) : Nat := ((toCols a).headD []).length

/-- `np.clip(x, lo, hi)` on one element: maximum with the lower bound is
applied first, then minimum with the upper bound; an absent bound is a
no-op on that side. -/
def npClip (lo hi : Option ℚ) (x : ℚ) : ℚ :=
  let y := match lo with
    | some a => max x a
    | none => x
  match hi with
  | some b => min y b
  | none => y

/-- The uniform post-processing of the fdda operators on one element:
`augmented_signal += offset` followed by `if clip_min is not None or
clip_max is not None: np.clip(...)`.  Offset first, clip second. -/
def postVal (offset : ℚ) (lo hi : Option ℚ) (x : ℚ) : ℚ :=
  if lo.isSome || hi.isSome then npClip lo hi (x + offset) else x + offset

/-- Post-processing applied to every element of every column. -/
def postCols (offset : ℚ) (lo hi : Option ℚ) (cols : List (List ℚ)) : List (List ℚ) :=
  cols.map (fun c => c.map (postVal offset lo hi))

/-- Python `int(q)`: truncation toward zero.  On a rational `num/den`
(`den > 0`, reduced) this is truncating integer division. -/
def pyInt (q : ℚ) : Int := Int.tdiv q.num q.den

/-- Length of the python prefix slice `a[:n]` for an `int` bound `n`
(negative bounds count from the end, clamped at 0). -/
def pySliceLen (n : Int) (len : Nat) : Nat :=
  if 0 ≤ n then min n.toNat len else len - min (-n).toNat len

/-- Python suffix slice `a[-k:]` for a natural `k`.  Note `a[-0:]` is
`a[0:]`, the whole list: slicing with `-int(rate)` and `rate = 0`
degenerates to selecting everything. -/
def lastSlice {α : Type} (k : Nat) (l : List α) : List α :=
  if k = 0 then l else l.drop (l.length - k)

/-- Python list indexing `l[i]` with negative-index wrap-around; `none`
is an IndexError. -/
def pyGetQ (l : List ℚ) (i : Int) : Option ℚ :=
  let j : Int := if 0 ≤ i then i else (l.length : Int) + i
  if 0 ≤ j ∧ j < (l.length : Int) then l[j.toNat]? else none

/-- A python `for`-loop that builds one result per element and raises out
of the whole loop at the first failing element. -/
def mapE {α β : Type} (f : α → Except Err β) : List α → Except Err (List β)
  | [] => .ok []
  | a :: l =>
    match f a with
    | .error e => .error e
    | .ok b =>
      match mapE f l with
      | .error e => .error e
      | .ok bs => .ok (b :: bs)

/-- The per-feature-column loop `for i in range(features)` shared by the
operators: column `i` is mapped through `f i`. -/
def mapCols (f : Nat → List ℚ → List ℚ) (cols : List (List ℚ)) : List (List ℚ) :=
  (List.range cols.length).map (fun i => f i (cols.getD i []))

/-! ### dominant_shuffle (src/fdda/dshuffle.py) -/

/-- `magnitude = np.abs(signal_f[1:])` for one column, as squared
magnitudes: `|z|` and `|z|^2` induce the same ordering and the same ties,
and only the ordering of the magnitudes is ever used. -/
def dshuffleMag (f : List (ℚ × ℚ)) : List ℚ :=
  (f.drop 1).map (fun z => z.1 * z.1 + z.2 * z.2)

/-- `np.argsort` ascending by key: a permutation of the index range that
sorts the keys in non-decreasing order. -/
def argsortAsc (keys : List ℚ) : List Nat :=
  List.insertionSort (fun a b => keys.getD a 0 ≤ keys.getD b 0) (List.range keys.length)

/-- `topk_indices = np.argsort(magnitude, axis=0)[-int(rate):, :] + 1` for
one column: ascending argsort of the non-DC magnitudes, python suffix
slice of length `rate`, then `+ 1` to convert back to spectrum indices
(so index 0, the DC bin, is never selected when the slice is proper). -/
def dshuffleTopk (rate : Nat) (mag : List ℚ) : List Nat :=
  (lastSlice rate (argsortAsc mag)).map (fun i => i + 1)

/-- The shuffle loop on one column's spectrum `f`: for each selected bin
`topk[j]`, a replacement index is drawn from the selected set itself
(`np.random.choice(topk_indices[:, i])`, modelled by `topk[rch j % |topk|]`)
and the value is read from the ORIGINAL spectrum `f` while the write goes
into the copy `new_signal_f` — one independent pass, never chained. -/
def dshuffleSpec (rch : Nat → Nat) (rate : Nat) (f : List (ℚ × ℚ)) : List (ℚ × ℚ) :=
  (List.range (dshuffleTopk rate (dshuffleMag f)).length).foldl
    (fun acc j =>
      acc.set ((dshuffleTopk rate (dshuffleMag f)).getD j 0)
        (f.getD ((dshuffleTopk rate (dshuffleMag f)).getD
          (rch j % (dshuffleTopk rate (dshuffleMag f)).length) 0) (0, 0)))
    f

/-- `dominant_shuffle(signal, rate, clip_min, clip_max, offset)`.
`rfft`/`irfft` are the external one-sided FFT pair (`irfft` is called with
`n=time_steps`); `rch j i` models the `np.random.choice` draw for feature
`i`, selected-bin position `j`. -/
def dominant_shuffle (rfft : List ℚ → List (ℚ × ℚ)) (irfft : List (ℚ × ℚ) → Nat → List ℚ)
    (rch : Nat → Nat → Nat) (signal : Arr) (rate : Nat)
    (clip_min clip_max : Option ℚ) (offset : ℚ) : Arr :=
  let T := rows signal
  restore signal (postCols offset clip_min clip_max
    (mapCols (fun i c => irfft (dshuffleSpec (rch i) rate (rfft c)) T) (toCols signal)))

/-! ### emd_augmentation and mix_augmentation (src/fdda/staug.py) -/

/-- `np.sum(weights[:, np.newaxis] * IMF, axis=0)`: the weighted sum of
the kept mode arrays, elementwise over the time axis of length `T`. -/
def wsum (ws : List ℚ) (imfs : List (List ℚ)) (T : Nat) : List ℚ :=
  (ws.zip imfs).foldl
    (fun acc p => acc.zipWith (fun x y => x + y) (p.2.map (fun v => p.1 * v)))
    (List.replicate T (0 : ℚ))

/-- One column of `emd_augmentation`: decompose with mode cap `n_imf`; if
the solver returns zero IMFs fall back to the original column; otherwise
keep `max(1, int(len(IMF) * imf_rate))` leading modes and reconstruct with
random weights `2 * rand()` (when the per-column Bernoulli draw `u` falls
below `random_weight_prob`) or uniform weights 1. -/
def emdCol (emd : List ℚ → Nat → List (List ℚ)) (u : ℚ) (rw : Nat → ℚ)
    (n_imf : Nat) (random_weight_prob imf_rate : ℚ) (s : List ℚ) : List ℚ :=
  let IMF := emd s n_imf
  if IMF.length = 0 then s
  else
    let n_use := max 1 (pyInt ((IMF.length : ℚ) * imf_rate)).toNat
    let kept := IMF.take n_use
    let ws :=
      if u < random_weight_prob then (List.range kept.length).map (fun j => 2 * rw j)
      else List.replicate kept.length (1 : ℚ)
    wsum ws kept s.length

/-- `emd_augmentation(signal, n_imf, random_weight_prob, imf_rate,
clip_min, clip_max, offset)`.  `emd` is the external EMD solver; `u i` is
the per-column weight-mode draw and `rw i j` the per-mode uniform draw. -/
def emd_augmentation (emd : List ℚ → Nat → List (List ℚ)) (u : Nat → ℚ) (rw : Nat → Nat → ℚ)
    (signal : Arr) (n_imf : Nat) (random_weight_prob imf_rate : ℚ)
    (clip_min clip_max : Option ℚ) (offset : ℚ) : Arr :=
  restore signal (postCols offset clip_min clip_max
    (mapCols (fun i c => emdCol emd (u i) (rw i) n_imf random_weight_prob imf_rate c)
      (toCols signal)))

/-- One column of the mixup: `mixed_signal = signal1.copy();
mixed_signal[:m] = lam*signal1[:m] + (1-lam)*signal2[:m]`. -/
def mixCol (lam : ℚ) (m : Nat) (c1 c2 : List ℚ) : List ℚ :=
  ((c1.take m).zipWith (fun x y => lam * x + (1 - lam) * y) (c2.take m)) ++ c1.drop m

/-- `mix_augmentation(signal1, signal2, alpha, mix_rate, clip_min,
clip_max, offset)`: raises ValueError on differing shapes, else mixes the
prefix window of length `int(signal1.shape[0] * mix_rate)` with the
Beta-sampled coefficient `lam` (`alpha` only parameterizes that draw). -/
def mix_augmentation (lam : ℚ) (signal1 signal2 : Arr) (alpha mix_rate : ℚ)
    (clip_min clip_max : Option ℚ) (offset : ℚ) : Except Err Arr :=
  if signal1.shape = signal2.shape then
    let T := signal1.shape.headD 0
    let m := pySliceLen (pyInt ((T : ℚ) * mix_rate)) T
    .ok (restore signal1 (postCols offset clip_min clip_max
      (((toCols signal1).zip (toCols signal2)).map (fun p => mixCol lam m p.1 p.2))))
  else .error .shapeMismatch

/-! ### WaveAug (src/pdda/augments/wave_aug.py) -/

/-- The external discrete wavelet pair: `pywt.wavedec(col, wavelet=w,
mode="symmetric", level=level)` and `pywt.waverec(coeffs, wavelet=w,
mode="symmetric")`. -/
structure WaveExt where
  wavedec : List ℚ → String → Nat → List (List ℚ)
  waverec : List (List ℚ) → String → List ℚ

/-- An index-aware elementwise map over one coefficient array. -/
def idxMap (g : Nat → ℚ → ℚ) (c : List ℚ) : List ℚ :=
  (List.range c.length).map (fun j => g j (c.getD j 0))

/-- `rates[min(i, len(rates) - 1)]` with python indexing (an empty rate
list is an IndexError, via `rates[-1]`). -/
def rateAt (rates : List ℚ) (i : Nat) : Option ℚ :=
  pyGetQ rates (min (i : Int) ((rates.length : Int) - 1))

/-- `coeffs[i] = np.where(np.random.uniform(0, 1, c_i.shape) < rate, 0,
c_i)` on one detail array: coefficient `j` is zeroed iff its uniform draw
falls below the selected rate. -/
def maskOne (draw : Nat → ℚ) (r : ℚ) (c : List ℚ) : List ℚ :=
  idxMap (fun j x => if draw j < r then 0 else x) c

/-- The masking loop of `WaveAug.augment`: `for i in range(1,
len(coeffs))` — index 0 (the approximation array) is left untouched, every
detail array `i ≥ 1` is masked with rate `rates[min(i, len(rates)-1)]`. -/
def maskCoeffs (u : Nat → Nat → ℚ) (rates : List ℚ) (coeffs : List (List ℚ)) :
    Except Err (List (List ℚ)) :=
  mapE
    (fun j =>
      if j = 0 then .ok (coeffs.getD 0 [])
      else
        match rateAt rates j with
        | some r => .ok (maskOne (u j) r (coeffs.getD j []))
        | none => .error .indexErr)
    (List.range coeffs.length)

namespace WaveAug

/-- One column of `WaveAug.augment`: decompose, mask, reconstruct, then
store `s[:time_steps]` into the float32 output column — numpy raises a
broadcast error if the truncated reconstruction is not exactly `T` long
(the code truncates but never pads). -/
def augmentCol (ext : WaveExt) (f32 : ℚ → ℚ) (u : Nat → Nat → ℚ) (rates : List ℚ)
    (wavelet : String) (level T : Nat) (c : List ℚ) : Except Err (List ℚ) :=
  match maskCoeffs u rates (ext.wavedec c wavelet level) with
  | .error e => .error e
  | .ok masked =>
    let s := (ext.waverec masked wavelet).take T
    if s.length = T then .ok (s.map f32) else .error .broadcastFail

/-- `WaveAug.augment(signal, rates, wavelet, level)`.  The output buffer
is `np.empty_like(signal, dtype=np.float32)`, so the result dtype is
float32 whatever `input_dtype` is, and stored values pass through the
float32 rounding `f32`. -/
def augment (ext : WaveExt) (f32 : ℚ → ℚ) (u : Nat → Nat → Nat → ℚ)
    (input_dtype : DType) (signal : Arr) (rates : List ℚ) (wavelet : String)
    (level : Nat) : Except Err (DType × Arr) :=
  match mapE
      (fun i => augmentCol ext f32 (u i) rates wavelet level (rows signal)
        ((toCols signal).getD i []))
      (List.range (toCols signal).length) with
  | .error e => .error e
  | .ok outCols => .ok (DType.float32, restore signal outCols)

/-- `mixed_c = np.where(np.random.uniform(0, 1, c1.shape) < rate, c1, c2)`
on one coefficient level: keep signal1's coefficient iff the draw falls
below the rate (the two coefficient arrays have equal shape, both coming
from `wavedec` at the same parameters). -/
def mixWaveOne (draw : Nat → ℚ) (r : ℚ) (c1 c2 : List ℚ) : List ℚ :=
  idxMap (fun j x => if draw j < r then x else c2.getD j 0) c1

/-- The mixing loop of `WaveAug.augment_multi`: `for i in range(len(coeffs1))`
— every level INCLUDING the approximation array at index 0 is eligible,
with rate `rates[min(i, len(rates)-1)]`. -/
def mixWaveCoeffs (u : Nat → Nat → ℚ) (rates : List ℚ) (cs1 cs2 : List (List ℚ)) :
    Except Err (List (List ℚ)) :=
  mapE
    (fun j =>
      match rateAt rates j with
      | some r => .ok (mixWaveOne (u j) r (cs1.getD j []) (cs2.getD j []))
      | none => .error .indexErr)
    (List.range cs1.length)

/-- One column of `WaveAug.augment_multi`: decompose both columns, mix
coefficients, reconstruct, store `s[:time_steps]` (truncate, never pad). -/
def augmentMultiCol (ext : WaveExt) (f32 : ℚ → ℚ) (u : Nat → Nat → ℚ) (rates : List ℚ)
    (wavelet : String) (level T : Nat) (c1 c2 : List ℚ) : Except Err (List ℚ) :=
  match mixWaveCoeffs u rates (ext.wavedec c1 wavelet level) (ext.wavedec c2 wavelet level) with
  | .error e => .error e
  | .ok mixed =>
    let s := (ext.waverec mixed wavelet).take T
    if s.length = T then .ok (s.map f32) else .error .broadcastFail

/-- `WaveAug.augment_multi(signal1, signal2, rates, wavelet, level)`:
raises ValueError on differing shapes (before rank normalization), else
mixes per column; output buffer is float32 `np.empty_like`. -/
def augment_multi (ext : WaveExt) (f32 : ℚ → ℚ) (u : Nat → Nat → Nat → ℚ)
    (input_dtype : DType) (signal1 signal2 : Arr) (rates : List ℚ) (wavelet : String)
    (level : Nat) : Except Err (DType × Arr) :=
  if signal1.shape = signal2.shape then
    match mapE
        (fun i => augmentMultiCol ext f32 (u i) rates wavelet level (rows signal1)
          ((toCols signal1).getD i []) ((toCols signal2).getD i []))
        (List.range (toCols signal1).length) with
    | .error e => .error e
    | .ok outCols => .ok (DType.float32, restore signal1 outCols)
  else .error .shapeMismatch

end WaveAug

/-! ### Helper lemmas about the embedding combinators -/

theorem getD_map_range {α : Type} (d : α) (g : Nat → α) (n i : Nat) (h : i < n) :
    ((List.range n).map g).getD i d = g i := by
  rw [List.getD_eq_getElem?_getD, List.getElem?_map, List.getElem?_range h]
  rfl

theorem length_map_range {α : Type} (g : Nat → α) (n : Nat) :
    ((List.range n).map g).length = n := by simp

theorem mem_map_range {α : Type} {x : α} {g : Nat → α} {n : Nat}
    (h : x ∈ (List.range n).map g) : ∃ i, i < n ∧ x = g i := by
  rcases List.mem_map.mp h with ⟨i, hi, rfl⟩
  exact ⟨i, List.mem_range.mp hi, rfl⟩

theorem length_mapCols (f : Nat → List ℚ → List ℚ) (cols : List (List ℚ)) :
    (mapCols f cols).length = cols.length := by simp [mapCols]

theorem getD_mapCols (f : Nat → List ℚ → List ℚ) (cols : List (List ℚ)) (i : Nat)
    (h : i < cols.length) : (mapCols f cols).getD i [] = f i (cols.getD i []) :=
  getD_map_range _ _ _ _ h

theorem mem_mapCols {c' : List ℚ} {f : Nat → List ℚ → List ℚ} {cols : List (List ℚ)}
    (h : c' ∈ mapCols f cols) : ∃ i, i < cols.length ∧ c' = f i (cols.getD i []) :=
  mem_map_range h

theorem mapE_ok_of {α β : Type} (f : α → Except Err β) (g : α → β) (l : List α)
    (h : ∀ a ∈ l, f a = .ok (g a)) : mapE f l = .ok (l.map g) := by
  induction l with
  | nil => rfl
  | cons a t ih =>
    have ha := h a (List.mem_cons_self a t)
    have ht := ih (fun x hx => h x (List.mem_cons_of_mem a hx))
    simp only [mapE, ha, ht, List.map_cons]

theorem mapE_ok_exists {α β : Type} (f : α → Except Err β) (l : List α)
    (h : ∀ a ∈ l, ∃ b, f a = .ok b) :
    ∃ bs, mapE f l = .ok bs ∧ bs.length = l.length ∧
      ∀ b ∈ bs, ∃ a ∈ l, f a = .ok b := by
  induction l with
  | nil => exact ⟨[], rfl, rfl, by intro b hb; cases hb⟩
  | cons a t ih =>
    rcases h a (List.mem_cons_self a t) with ⟨b, hb⟩
    rcases ih (fun x hx => h x (List.mem_cons_of_mem a hx)) with ⟨bs, hbs, hlen, hmem⟩
    refine ⟨b :: bs, ?_, by simp [hlen], ?_⟩
    · simp only [mapE, hb, hbs]
    · intro b' hb'
      rcases List.mem_cons.mp hb' with rfl | hb'
      · exact ⟨a, List.mem_cons_self a t, hb⟩
      · rcases hmem b' hb' with ⟨x, hx, hfx⟩
        exact ⟨x, List.mem_cons_of_mem a hx, hfx⟩

theorem mapE_error_exists {α β : Type} {f : α → Except Err β} {l : List α} {e : Err}
    (h : mapE f l = .error e) : ∃ a ∈ l, f a = .error e := by
  induction l with
  | nil => cases h
  | cons a t ih =>
    by_cases hfa : ∃ b, f a = .ok b
    · rcases hfa with ⟨b, hb⟩
      rw [mapE, hb] at h
      rcases hmt : mapE f t with e' | bs
      · rw [hmt] at h
        cases h
        rcases ih hmt with ⟨x, hx, hfx⟩
        exact ⟨x, List.mem_cons_of_mem a hx, hfx⟩
      · rw [hmt] at h
        cases h
    · rcases hfa2 : f a with e' | b
      · rw [mapE, hfa2] at h
        cases h
        exact ⟨a, List.mem_cons_self a t, hfa2⟩
      · exact absurd ⟨b, hfa2⟩ hfa

theorem foldl_set_getD_cases {α : Type} (g : Nat → Nat) (hv : Nat → α) (L : List Nat)
    (acc : List α) (j : Nat) (d : α) :
    (L.foldl (fun a x => a.set (g x) (hv x)) acc).getD j d = acc.getD j d
    ∨ ∃ x ∈ L, g x = j ∧
        (L.foldl (fun a x => a.set (g x) (hv x)) acc).getD j d = hv x := by
  induction L generalizing acc with
  | nil => exact Or.inl rfl
  | cons x t ih =>
    have hstep : (x :: t).foldl (fun a x => a.set (g x) (hv x)) acc
        = t.foldl (fun a x => a.set (g x) (hv x)) (acc.set (g x) (hv x)) := rfl
    rcases ih (acc.set (g x) (hv x)) with h | ⟨y, hy, hgy, hval⟩
    · by_cases hgx : g x = j
      · by_cases hlt : j < acc.length
        · refine Or.inr ⟨x, List.mem_cons_self x t, hgx, ?_⟩
          rw [hstep, h, hgx, List.getD_eq_getElem?_getD, List.getElem?_set_self hlt]
          rfl
        · refine Or.inl ?_
          rw [hstep, h, List.set_eq_of_length_le (Nat.le_of_not_lt (hgx ▸ hlt))]
      · refine Or.inl ?_
        rw [hstep, h, List.getD_eq_getElem?_getD, List.getElem?_set_ne hgx,
          ← List.getD_eq_getElem?_getD]
    · exact Or.inr ⟨y, List.mem_cons_of_mem x hy, hgy, hstep ▸ hval⟩

theorem foldl_set_getD_of_ne {α : Type} (g : Nat → Nat) (hv : Nat → α) (L : List Nat)
    (acc : List α) (j : Nat) (d : α) (hne : ∀ x ∈ L, g x ≠ j) :
    (L.foldl (fun a x => a.set (g x) (hv x)) acc).getD j d = acc.getD j d := by
  rcases foldl_set_getD_cases g hv L acc j d with h | ⟨x, hx, hgx, _⟩
  · exact h
  · exact absurd hgx (hne x hx)

theorem postVal_mem_range (a b : ℚ) (hab : a ≤ b) (off x : ℚ) :
    a ≤ postVal off (some a) (some b) x ∧ postVal off (some a) (some b) x ≤ b := by
  simp only [postVal, npClip, Option.isSome_some, Bool.or_self, if_true]
  exact ⟨le_min (le_max_right _ _) hab, min_le_right _ _⟩

theorem postVal_of_none_none (off x : ℚ) : postVal off none none x = x + off := rfl

theorem mem_headD_flatten {x : ℚ} {L : List (List ℚ)} (h : x ∈ L.headD []) :
    x ∈ L.flatten := by
  cases L with
  | nil => cases h
  | cons c t => exact List.mem_flatten.mpr ⟨c, List.mem_cons_self c t, h⟩

theorem length_postCols (off : ℚ) (lo hi : Option ℚ) (cols : List (List ℚ)) :
    (postCols off lo hi cols).length = cols.length := by simp [postCols]

theorem mem_postCols {c' : List ℚ} {off : ℚ} {lo hi : Option ℚ} {cols : List (List ℚ)}
    (h : c' ∈ postCols off lo hi cols) :
    ∃ c ∈ cols, c' = c.map (postVal off lo hi) := by
  rcases List.mem_map.mp h with ⟨c, hc, rfl⟩
  exact ⟨c, hc, rfl⟩

theorem elems_restore_post {a : Arr} {off : ℚ} {lo hi : Option ℚ} {cols : List (List ℚ)}
    {x : ℚ} (hx : x ∈ (restore a (postCols off lo hi cols)).elems) :
    ∃ y, x = postVal off lo hi y := by
  have hflat : x ∈ (postCols off lo hi cols).flatten := by
    cases a with
    | r1 v => exact mem_headD_flatten hx
    | r2 cs => exact hx
  rcases List.mem_flatten.mp hflat with ⟨c', hc', hxc⟩
  rcases mem_postCols hc' with ⟨c, _, rfl⟩
  rcases List.mem_map.mp hxc with ⟨y, _, rfl⟩
  exact ⟨y, rfl⟩

theorem toCols_restore (a : Arr) (cols' : List (List ℚ))
    (h : cols'.length = (toCols a).length) : toCols (restore a cols') = cols' := by
  cases a with
  | r1 v =>
    cases cols' with
    | nil => cases h
    | cons c t =>
      cases t with
      | nil => rfl
      | cons c2 t2 => cases h
  | r2 cols => rfl

theorem restore_toCols (a : Arr) : restore a (toCols a) = a := by
  cases a with
  | r1 v => rfl
  | r2 cols => rfl

theorem wf_col_len {a : Arr} (ha : a.Wf) : ∀ c ∈ toCols a, c.length = rows a := by
  cases a with
  | r1 v =>
    intro c hc
    rcases List.mem_cons.mp hc with rfl | hc
    · rfl
    · cases hc
  | r2 cols => exact ha

theorem shape_restore (a : Arr) (outCols : List (List ℚ))
    (hlen : outCols.length = (toCols a).length)
    (hcols : ∀ c ∈ outCols, c.length = rows a) :
    (restore a outCols).shape = a.shape := by
  cases a with
  | r1 v =>
    cases outCols with
    | nil => cases hlen
    | cons c t =>
      cases t with
      | nil =>
        show [c.length] = [v.length]
        rw [hcols c (List.mem_cons_self c [])]
        rfl
      | cons c2 t2 => cases hlen
  | r2 cols =>
    cases outCols with
    | nil =>
      have : cols = [] := List.eq_nil_of_length_eq_zero hlen.symm
      subst this
      rfl
    | cons c t =>
      show [c.length, (c :: t).length] = [(cols.headD []).length, cols.length]
      rw [hcols c (List.mem_cons_self c t), hlen]
      rfl

theorem getD_mem_of_lt {α : Type} (l : List α) (d : α) {i : Nat} (h : i < l.length) :
    l.getD i d ∈ l := by
  rw [List.getD_eq_getElem _ _ h]
  exact List.getElem_mem h

theorem getD_postCols (off : ℚ) (lo hi : Option ℚ) (cols : List (List ℚ)) (i : Nat)
    (h : i < cols.length) :
    (postCols off lo hi cols).getD i [] = (cols.getD i []).map (postVal off lo hi) := by
  rw [postCols, List.getD_eq_getElem?_getD, List.getElem?_map,
    List.getElem?_eq_getElem h, List.getD_eq_getElem _ _ h]
  rfl

theorem rows_eq_shape_headD (a : Arr) : rows a = a.shape.headD 0 := by
  cases a with
  | r1 v => rfl
  | r2 cols => rfl

theorem toCols_length_eq_of_shape {s1 s2 : Arr} (h : s1.shape = s2.shape) :
    (toCols s1).length = (toCols s2).length := by
  cases s1 with
  | r1 v1 =>
    cases s2 with
    | r1 v2 => rfl
    | r2 c2 => simp [Arr.shape] at h
  | r2 c1 =>
    cases s2 with
    | r1 v2 => simp [Arr.shape] at h
    | r2 c2 =>
      simp only [Arr.shape, List.cons.injEq] at h
      exact h.2.1

theorem rows_eq_of_shape {s1 s2 : Arr} (h : s1.shape = s2.shape) : rows s1 = rows s2 := by
  rw [rows_eq_shape_headD, rows_eq_shape_headD, h]

theorem pySliceLen_le (n : Int) (len : Nat) : pySliceLen n len ≤ len := by
  unfold pySliceLen
  split
  · exact Nat.min_le_right _ _
  · omega

theorem mixCol_length {lam : ℚ} {m T : Nat} {c1 c2 : List ℚ}
    (h1 : c1.length = T) (h2 : c2.length = T) (hm : m ≤ T) :
    (mixCol lam m c1 c2).length = T := by
  simp only [mixCol, List.length_append, List.length_zipWith, List.length_take,
    List.length_drop, h1, h2]
  omega

theorem mixCol_zero (lam : ℚ) (c1 c2 : List ℚ) : mixCol lam 0 c1 c2 = c1 := by
  simp [mixCol]

theorem wsum_step_length (ps : List (ℚ × List ℚ)) (acc : List ℚ)
    (h : ∀ p ∈ ps, p.2.length = acc.length) :
    (ps.foldl
      (fun acc p => acc.zipWith (fun x y => x + y) (p.2.map (fun v => p.1 * v)))
      acc).length = acc.length := by
  induction ps generalizing acc with
  | nil => rfl
  | cons p t ih =>
    have hstep : (acc.zipWith (fun x y => x + y) (p.2.map (fun v => p.1 * v))).length
        = acc.length := by
      simp [List.length_zipWith, h p (List.mem_cons_self p t)]
    have ht : ∀ q ∈ t,
        q.2.length = (acc.zipWith (fun x y => x + y) (p.2.map (fun v => p.1 * v))).length := by
      intro q hq
      rw [hstep]
      exact h q (List.mem_cons_of_mem p hq)
    calc ((p :: t).foldl _ acc).length = _ := ih _ ht
    _ = acc.length := hstep

theorem wsum_length (ws : List ℚ) (imfs : List (List ℚ)) (T : Nat)
    (h : ∀ m ∈ imfs, m.length = T) : (wsum ws imfs T).length = T := by
  unfold wsum
  rw [wsum_step_length]
  · exact List.length_replicate T 0
  · intro p hp
    rw [List.length_replicate]
    exact h p.2 (List.of_mem_zip hp).2

theorem emdCol_length (emdS : List ℚ → Nat → List (List ℚ)) (u : ℚ) (rw : Nat → ℚ)
    (n_imf : Nat) (rwp imf_rate : ℚ) (s : List ℚ)
    (hmf : ∀ m ∈ emdS s n_imf, m.length = s.length) :
    (emdCol emdS u rw n_imf rwp imf_rate s).length = s.length := by
  simp only [emdCol]
  by_cases h0 : (emdS s n_imf).length = 0
  · rw [if_pos h0]
  · rw [if_neg h0]
    apply wsum_length
    intro m hm
    exact hmf m ((List.take_sublist _ _).mem hm)

theorem rateAt_of_ne_nil (rates : List ℚ) (h : rates ≠ []) (i : Nat) :
    rateAt rates i = some (rates.getD (min i (rates.length - 1)) 0) := by
  have hlen : 1 ≤ rates.length := List.length_pos.mpr h
  have h0 : (0 : Int) ≤ min (i : Int) ((rates.length : Int) - 1) := by omega
  have h1 : min (i : Int) ((rates.length : Int) - 1) < (rates.length : Int) := by omega
  have htn : (min (i : Int) ((rates.length : Int) - 1)).toNat = min i (rates.length - 1) := by
    omega
  unfold rateAt pyGetQ
  rw [if_pos h0]
  rw [if_pos ⟨h0, h1⟩, htn]
  have hlt : min i (rates.length - 1) < rates.length := by omega
  rw [List.getElem?_eq_getElem hlt, List.getD_eq_getElem _ _ hlt]

theorem maskCoeffs_eq (u : Nat → Nat → ℚ) (rates : List ℚ) (coeffs : List (List ℚ))
    (h : rates ≠ []) :
    maskCoeffs u rates coeffs
      = .ok ((List.range coeffs.length).map
          (fun j => if j = 0 then coeffs.getD 0 []
            else maskOne (u j) (rates.getD (min j (rates.length - 1)) 0)
              (coeffs.getD j []))) := by
  apply mapE_ok_of
  intro j _
  by_cases hj : j = 0
  · simp [hj]
  · rw [if_neg hj, if_neg hj, rateAt_of_ne_nil rates h j]

theorem mixWaveCoeffs_eq (u : Nat → Nat → ℚ) (rates : List ℚ) (cs1 cs2 : List (List ℚ))
    (h : rates ≠ []) :
    WaveAug.mixWaveCoeffs u rates cs1 cs2
      = .ok ((List.range cs1.length).map
          (fun j => WaveAug.mixWaveOne (u j) (rates.getD (min j (rates.length - 1)) 0)
            (cs1.getD j []) (cs2.getD j []))) := by
  apply mapE_ok_of
  intro j _
  rw [rateAt_of_ne_nil rates h j]

theorem augmentCol_ok (ext : WaveExt) (f32 : ℚ → ℚ) (u : Nat → Nat → ℚ) (rates : List ℚ)
    (wavelet : String) (level T : Nat) (c : List ℚ) (hrates : rates ≠ [])
    (hrec : ∀ cs, T ≤ (ext.waverec cs wavelet).length) :
    ∃ out, WaveAug.augmentCol ext f32 u rates wavelet level T c = .ok out
      ∧ out.length = T
      ∧ ∃ masked, maskCoeffs u rates (ext.wavedec c wavelet level) = .ok masked
          ∧ out = ((ext.waverec masked wavelet).take T).map f32 := by
  have hlen : ∀ cs : List (List ℚ), ((ext.waverec cs wavelet).take T).length = T := by
    intro cs
    rw [List.length_take]
    exact Nat.min_eq_left (hrec cs)
  unfold WaveAug.augmentCol
  rw [maskCoeffs_eq u rates _ hrates]
  dsimp only
  rw [if_pos (hlen _)]
  exact ⟨_, rfl, by rw [List.length_map]; exact hlen _, _, rfl, rfl⟩

theorem augmentMultiCol_ok (ext : WaveExt) (f32 : ℚ → ℚ) (u : Nat → Nat → ℚ)
    (rates : List ℚ) (wavelet : String) (level T : Nat) (c1 c2 : List ℚ)
    (hrates : rates ≠ []) (hrec : ∀ cs, T ≤ (ext.waverec cs wavelet).length) :
    ∃ out, WaveAug.augmentMultiCol ext f32 u rates wavelet level T c1 c2 = .ok out
      ∧ out.length = T
      ∧ ∃ mixed, WaveAug.mixWaveCoeffs u rates (ext.wavedec c1 wavelet level)
            (ext.wavedec c2 wavelet level) = .ok mixed
          ∧ out = ((ext.waverec mixed wavelet).take T).map f32 := by
  have hlen : ∀ cs : List (List ℚ), ((ext.waverec cs wavelet).take T).length = T := by
    intro cs
    rw [List.length_take]
    exact Nat.min_eq_left (hrec cs)
  unfold WaveAug.augmentMultiCol
  rw [mixWaveCoeffs_eq u rates _ _ hrates]
  dsimp only
  rw [if_pos (hlen _)]
  exact ⟨_, rfl, by rw [List.length_map]; exact hlen _, _, rfl, rfl⟩

theorem map_postVal_id (s : List ℚ) : s.map (postVal 0 none none) = s := by
  induction s with
  | nil => rfl
  | cons a t ih => simp [postVal_of_none_none, ih]

theorem postCols_id (cols : List (List ℚ)) : postCols 0 none none cols = cols := by
  simp only [postCols]
  calc cols.map (fun c => c.map (postVal 0 none none))
      = cols.map (fun c => c) := List.map_congr_left (fun c _ => map_postVal_id c)
  _ = cols := List.map_id' cols

/-! ### Claim theorems -/

/-- C2: whenever both clip bounds are supplied with `clip_min ≤ clip_max`,
every element of the output of `dominant_shuffle`, `emd_augmentation` and
`mix_augmentation` lies in the closed interval `[clip_min, clip_max]`, and
the offset is applied before the clip (the post-processing of any value
`x` is exactly `np.clip(x + offset, clip_min, clip_max)`), never after. -/
theorem clipping_law (a b : ℚ) (hab : a ≤ b)
    (rfft : List ℚ → List (ℚ × ℚ)) (irfft : List (ℚ × ℚ) → Nat → List ℚ)
    (rch : Nat → Nat → Nat) (emdS : List ℚ → Nat → List (List ℚ))
    (u1 : Nat → ℚ) (rw : Nat → Nat → ℚ) (lam alpha mix_rate rwp imf_rate offset : ℚ)
    (rate n_imf : Nat) (s1 s2 sig : Arr) :
    (∀ x ∈ (dominant_shuffle rfft irfft rch sig rate (some a) (some b) offset).elems,
        a ≤ x ∧ x ≤ b)
    ∧ (∀ x ∈ (emd_augmentation emdS u1 rw sig n_imf rwp imf_rate
          (some a) (some b) offset).elems, a ≤ x ∧ x ≤ b)
    ∧ (∀ out, mix_augmentation lam s1 s2 alpha mix_rate (some a) (some b) offset
          = .ok out → ∀ x ∈ out.elems, a ≤ x ∧ x ≤ b)
    ∧ (∀ x, postVal offset (some a) (some b) x = npClip (some a) (some b) (x + offset)) := by
  refine ⟨?_, ?_, ?_, ?_⟩
  · intro x hx
    rcases elems_restore_post hx with ⟨y, rfl⟩
    exact postVal_mem_range a b hab offset y
  · intro x hx
    rcases elems_restore_post hx with ⟨y, rfl⟩
    exact postVal_mem_range a b hab offset y
  · intro out hout x hx
    unfold mix_augmentation at hout
    split at hout
    · cases hout
      rcases elems_restore_post hx with ⟨y, rfl⟩
      exact postVal_mem_range a b hab offset y
    · cases hout
  · intro x
    rfl

/-- Witness for C2 at a concrete run: clip bounds 0 and 1, offset 5, a
rank-1 signal, trivial externals. -/
theorem clipping_law_witness :
    (0 : ℚ) ≤ 1
    ∧ (∀ x ∈ (dominant_shuffle (fun v => (List.range (v.length / 2 + 1)).map (fun _ => (0, 0)))
          (fun _ n => List.replicate n 10) (fun _ _ => 0) (Arr.r1 [1, 2, 3, 4]) 2
          (some 0) (some 1) 5).elems, (0 : ℚ) ≤ x ∧ x ≤ 1) :=
  ⟨by decide,
    (clipping_law 0 1 (by decide)
      (fun v => (List.range (v.length / 2 + 1)).map (fun _ => (0, 0)))
      (fun _ n => List.replicate n 10) (fun _ _ => 0) (fun _ _ => [])
      (fun _ => 0) (fun _ _ => 0) 0 0 0 0 0 5 2 0
      (Arr.r1 [0]) (Arr.r1 [0]) (Arr.r1 [1, 2, 3, 4])).1⟩

/-- C4: a feature column on which the EMD solver returns zero IMFs is
passed through unchanged (with the default offset 0.0 and no clip
bounds the output column equals the input column exactly); the
degenerate decomposition is a fallback, not an error. -/
theorem emd_zero_imf_fallback
    (emdS : List ℚ → Nat → List (List ℚ)) (u1 : Nat → ℚ) (rw : Nat → Nat → ℚ)
    (sig : Arr) (n_imf : Nat) (rwp imf_rate : ℚ) (i : Nat)
    (h : emdS ((toCols sig).getD i []) n_imf = []) :
    (toCols (emd_augmentation emdS u1 rw sig n_imf rwp imf_rate none none 0)).getD i []
      = (toCols sig).getD i [] := by
  have hlen : (postCols 0 none none
      (mapCols (fun i c => emdCol emdS (u1 i) (rw i) n_imf rwp imf_rate c)
        (toCols sig))).length = (toCols sig).length := by
    rw [length_postCols, length_mapCols]
  unfold emd_augmentation
  rw [toCols_restore _ _ hlen]
  by_cases hi : i < (toCols sig).length
  · rw [getD_postCols _ _ _ _ _ (by rw [length_mapCols]; exact hi), getD_mapCols _ _ _ hi]
    simp only [emdCol, h, List.length_nil, if_pos]
    exact map_postVal_id _
  · have hi' : (toCols sig).length ≤ i := Nat.le_of_not_lt hi
    rw [List.getD_eq_default _ _ (by rw [length_postCols, length_mapCols]; exact hi'),
      List.getD_eq_default _ _ hi']

/-- Witness for C4: a constant column, a solver that returns zero modes. -/
theorem emd_zero_imf_fallback_witness :
    (fun (_ : List ℚ) (_ : Nat) => ([] : List (List ℚ))) ((toCols (Arr.r1 [5, 5, 5])).getD 0 []) 10 = []
    ∧ (toCols (emd_augmentation (fun _ _ => []) (fun _ => 0) (fun _ _ => 0)
        (Arr.r1 [5, 5, 5]) 10 (1/2) 1 none none 0)).getD 0 []
      = (toCols (Arr.r1 [(5:ℚ), 5, 5])).getD 0 [] :=
  ⟨rfl, emd_zero_imf_fallback (fun _ _ => []) (fun _ => 0) (fun _ _ => 0)
    (Arr.r1 [5, 5, 5]) 10 (1/2) 1 0 rfl⟩

/-- C8: with `mix_rate = 0` (and the default offset 0.0 and no clip
bounds) `mix_augmentation` returns `signal1` exactly, whatever the
Beta-sampled coefficient `lam` and whatever `signal2` holds. -/
theorem mix_rate_zero_identity (lam alpha : ℚ) (s1 s2 : Arr)
    (h : s1.shape = s2.shape) :
    mix_augmentation lam s1 s2 alpha 0 none none 0 = .ok s1 := by
  unfold mix_augmentation
  rw [if_pos h]
  have hm : pySliceLen (pyInt ((s1.shape.headD 0 : ℚ) * 0)) (s1.shape.headD 0) = 0 := by
    norm_num [pyInt, pySliceLen, Int.zero_tdiv]
  dsimp only
  rw [hm]
  have hmap : ((toCols s1).zip (toCols s2)).map (fun p => mixCol lam 0 p.1 p.2)
      = toCols s1 := by
    calc ((toCols s1).zip (toCols s2)).map (fun p => mixCol lam 0 p.1 p.2)
        = ((toCols s1).zip (toCols s2)).map Prod.fst :=
          List.map_congr_left (fun p _ => mixCol_zero lam p.1 p.2)
    _ = toCols s1 := List.map_fst_zip _ _ (toCols_length_eq_of_shape h).le
  rw [hmap, postCols_id, restore_toCols]

/-- Witness for C8: two concrete equal-shaped rank-2 signals. -/
theorem mix_rate_zero_identity_witness :
    (Arr.r2 [[(1:ℚ), 2], [3, 4]]).shape = (Arr.r2 [[(5:ℚ), 6], [7, 8]]).shape
    ∧ mix_augmentation (1/3) (Arr.r2 [[(1:ℚ), 2], [3, 4]]) (Arr.r2 [[(5:ℚ), 6], [7, 8]])
        1 0 none none 0 = .ok (Arr.r2 [[(1:ℚ), 2], [3, 4]]) :=
  ⟨by decide, mix_rate_zero_identity (1/3) 1 (Arr.r2 [[(1:ℚ), 2], [3, 4]])
    (Arr.r2 [[(5:ℚ), 6], [7, 8]]) (by decide)⟩

theorem augmentMultiCol_ne_shapeMismatch (ext : WaveExt) (f32 : ℚ → ℚ)
    (u : Nat → Nat → ℚ) (rates : List ℚ) (wavelet : String) (level T : Nat)
    (c1 c2 : List ℚ) (e : Err)
    (h : WaveAug.augmentMultiCol ext f32 u rates wavelet level T c1 c2 = .error e) :
    e ≠ Err.shapeMismatch := by
  unfold WaveAug.augmentMultiCol at h
  rcases hm : WaveAug.mixWaveCoeffs u rates (ext.wavedec c1 wavelet level)
      (ext.wavedec c2 wavelet level) with e' | mixed
  · rw [hm] at h
    cases h
    rcases mapE_error_exists hm with ⟨j, _, hj⟩
    rcases hr : rateAt rates j with _ | r
    · rw [hr] at hj
      cases hj
      decide
    · rw [hr] at hj
      cases hj
  · rw [hm] at h
    dsimp only at h
    split at h
    · cases h
    · cases h
      decide

/-- C10: `WaveAug.augment` and `WaveAug.augment_multi` allocate their
output as `np.empty_like(signal, dtype=np.float32)`: whatever the input
array's dtype, a successful result always carries dtype float32 (and the
stored values are the reconstruction passed through the float32
rounding), a narrowing the spec never states. -/
theorem wave_output_dtype_float32 (ext : WaveExt) (f32 : ℚ → ℚ)
    (u u3 : Nat → Nat → Nat → ℚ) (input_dtype : DType) (a b : Arr)
    (rates : List ℚ) (wavelet : String) (level : Nat) (o o2 : DType × Arr) :
    (WaveAug.augment ext f32 u input_dtype a rates wavelet level = .ok o →
      o.1 = DType.float32)
    ∧ (WaveAug.augment_multi ext f32 u3 input_dtype a b rates wavelet level = .ok o2 →
      o2.1 = DType.float32) := by
  constructor
  · intro h
    unfold WaveAug.augment at h
    split at h
    · cases h
    · cases h
      rfl
  · intro h
    unfold WaveAug.augment_multi at h
    split at h
    · split at h
      · cases h
      · cases h
        rfl
    · cases h

/-- Witness for C10: a float64 input run through trivial externals comes
out tagged float32, for both operators. -/
theorem wave_output_dtype_float32_witness :
    (DType.float32, Arr.r1 [(1:ℚ), 2]).1 = DType.float32
    ∧ (DType.float32, Arr.r1 [(1:ℚ), 2]).1 = DType.float32 :=
  ⟨(wave_output_dtype_float32 ⟨fun s _ _ => [s], fun cs _ => cs.headD []⟩ (fun x => x)
      (fun _ _ _ => 0) (fun _ _ _ => 0) DType.float64 (Arr.r1 [1, 2]) (Arr.r1 [1, 2])
      [0] "db1" 2 (DType.float32, Arr.r1 [1, 2]) (DType.float32, Arr.r1 [1, 2])).1
    rfl,
   (wave_output_dtype_float32 ⟨fun s _ _ => [s], fun cs _ => cs.headD []⟩ (fun x => x)
      (fun _ _ _ => 0) (fun _ _ _ => 0) DType.float64 (Arr.r1 [1, 2]) (Arr.r1 [1, 2])
      [0] "db1" 2 (DType.float32, Arr.r1 [1, 2]) (DType.float32, Arr.r1 [1, 2])).2
    rfl⟩

/-- C3: the two-signal operators `mix_augmentation` and
`WaveAug.augment_multi` raise the shape-mismatch error exactly when the
two input shapes differ (on equal shapes any failure is a different
error, never the shape error); in particular mix of a (5,2) and a (3,2)
zero array raises it. -/
theorem shape_mismatch_errors (lam alpha mix_rate offset : ℚ) (lo hi : Option ℚ)
    (ext : WaveExt) (f32 : ℚ → ℚ) (u : Nat → Nat → Nat → ℚ) (input_dtype : DType)
    (rates : List ℚ) (wavelet : String) (level : Nat) (s1 s2 : Arr) :
    (mix_augmentation lam s1 s2 alpha mix_rate lo hi offset = .error .shapeMismatch
      ↔ s1.shape ≠ s2.shape)
    ∧ (WaveAug.augment_multi ext f32 u input_dtype s1 s2 rates wavelet level
        = .error .shapeMismatch ↔ s1.shape ≠ s2.shape)
    ∧ mix_augmentation lam (Arr.r2 [List.replicate 5 0, List.replicate 5 0])
        (Arr.r2 [List.replicate 3 0, List.replicate 3 0]) alpha mix_rate lo hi offset
      = .error .shapeMismatch := by
  refine ⟨?_, ?_, ?_⟩
  · by_cases hs : s1.shape = s2.shape
    · unfold mix_augmentation
      rw [if_pos hs]
      simp [hs]
    · unfold mix_augmentation
      rw [if_neg hs]
      simp [hs]
  · by_cases hs : s1.shape = s2.shape
    · unfold WaveAug.augment_multi
      rw [if_pos hs]
      constructor
      · intro h
        split at h
        · cases h
          rename_i e hmap
          rcases mapE_error_exists hmap with ⟨i, _, hcol⟩
          exact absurd rfl (augmentMultiCol_ne_shapeMismatch _ _ _ _ _ _ _ _ _ _ hcol)
        · cases h
      · intro h
        exact absurd hs h
    · unfold WaveAug.augment_multi
      rw [if_neg hs]
      simp [hs]
  · unfold mix_augmentation
    rw [if_neg (by decide)]

/-- C7: in the masking loop of `WaveAug.augment` the approximation array
(index 0 of the decomposition) is never masked, and each detail array at
index `i ≥ 1` is masked coefficientwise with probability
`rates[min(i, len(rates)-1)]` — a rate list shorter than the number of
detail levels is extended by repeating its last value; each coefficient
is zeroed exactly when its uniform draw falls below that rate. -/
theorem wave_mask_policy (u : Nat → Nat → ℚ) (rates : List ℚ) (coeffs : List (List ℚ))
    (h : rates ≠ []) :
    maskCoeffs u rates coeffs
      = .ok ((List.range coeffs.length).map
          (fun j => if j = 0 then coeffs.getD 0 []
            else maskOne (u j) (rates.getD (min j (rates.length - 1)) 0)
              (coeffs.getD j [])))
    ∧ (∀ d r c j, j < c.length →
        (maskOne d r c).getD j 0 = if d j < r then (0 : ℚ) else c.getD j 0) :=
  ⟨maskCoeffs_eq u rates coeffs h,
   fun d r c j hj => getD_map_range _ _ _ _ hj⟩

/-- Witness for C7: two coefficient arrays, one rate, all draws below the
rate: the approximation `[1]` survives, the detail `[2, 3]` is zeroed. -/
theorem wave_mask_policy_witness :
    ([(1:ℚ)/2] ≠ ([] : List ℚ))
    ∧ maskCoeffs (fun _ _ => 0) [(1:ℚ)/2] [[1], [2, 3]] = .ok [[1], [0, 0]] :=
  ⟨by decide,
   ((wave_mask_policy (fun _ _ => 0) [(1:ℚ)/2] [[1], [2, 3]] (by decide)).1).trans rfl⟩

/-- C9 (amended): in `WaveAug.augment` and `WaveAug.augment_multi` the
reconstructed column is truncated to exactly the original length T and
placed in the output whenever the inverse reconstruction is at least T
long; when the reconstruction is shorter than T the code does NOT pad —
the column assignment fails with a broadcast error (see the
counterexample), so the original claim's padding case does not exist. -/
theorem wave_truncation (ext : WaveExt) (f32 : ℚ → ℚ) (u : Nat → Nat → ℚ)
    (rates : List ℚ) (wavelet : String) (level T : Nat) (c c1 c2 : List ℚ)
    (hrates : rates ≠ []) (hrec : ∀ cs, T ≤ (ext.waverec cs wavelet).length) :
    (∃ out, WaveAug.augmentCol ext f32 u rates wavelet level T c = .ok out
      ∧ out.length = T
      ∧ ∃ masked, maskCoeffs u rates (ext.wavedec c wavelet level) = .ok masked
          ∧ out = ((ext.waverec masked wavelet).take T).map f32)
    ∧ (∃ out, WaveAug.augmentMultiCol ext f32 u rates wavelet level T c1 c2 = .ok out
      ∧ out.length = T
      ∧ ∃ mixed, WaveAug.mixWaveCoeffs u rates (ext.wavedec c1 wavelet level)
            (ext.wavedec c2 wavelet level) = .ok mixed
          ∧ out = ((ext.waverec mixed wavelet).take T).map f32) :=
  ⟨augmentCol_ok ext f32 u rates wavelet level T c hrates hrec,
   augmentMultiCol_ok ext f32 u rates wavelet level T c1 c2 hrates hrec⟩

/-- Counterexample to C9 as stated: when the inverse reconstruction is
shorter than T (here an inverse transform returning the empty list
against T = 1), the column is NOT padded to length T — `WaveAug.augment`
aborts with a broadcast error instead of placing a length-T column. -/
theorem wave_truncation_cex :
    WaveAug.augment ⟨fun s _ _ => [s], fun _ _ => []⟩ (fun x => x) (fun _ _ _ => 0)
      DType.float64 (Arr.r1 [1]) [(1:ℚ)/2] "db1" 2 = .error .broadcastFail := rfl

/-- Witness for C9 (amended): a reconstruction of length 3 against T = 2
is truncated to exactly length 2. -/
theorem wave_truncation_witness :
    ([(1:ℚ)/2] ≠ ([] : List ℚ))
    ∧ ∃ out, WaveAug.augmentCol ⟨fun s _ _ => [s], fun _ _ => [(7:ℚ), 8, 9]⟩
        (fun x => x) (fun _ _ => 0) [(1:ℚ)/2] "db1" 2 2 [1, 2] = .ok out
      ∧ out.length = 2
      ∧ ∃ masked, maskCoeffs (fun _ _ => 0) [(1:ℚ)/2]
            ((⟨fun s _ _ => [s], fun _ _ => [(7:ℚ), 8, 9]⟩ : WaveExt).wavedec [1, 2] "db1" 2)
          = .ok masked
          ∧ out = (((⟨fun s _ _ => [s], fun _ _ => [(7:ℚ), 8, 9]⟩ : WaveExt).waverec
              masked "db1").take 2).map (fun x => x) :=
  ⟨by decide,
   (wave_truncation ⟨fun s _ _ => [s], fun _ _ => [(7:ℚ), 8, 9]⟩ (fun x => x)
     (fun _ _ => 0) [(1:ℚ)/2] "db1" 2 2 [1, 2] [0] [0] (by decide)
     (by intro cs; show 2 ≤ 3; decide)).1⟩

/-- Counterexample to C5 as stated: `rate = 0` satisfies `rate ≤ ⌊T/2⌋`,
but the python slice `[-0:]` degenerates to ALL bins instead of selecting
exactly 0 bins, and (contrary to "every non-selected bin keeps its
original spectral value") the spectrum does change: on the spectrum
`[(0,0), (1,0), (2,0)]` (two non-DC bins) with rate 0 both bins are
candidates and bin 1 is overwritten. -/
theorem shuffle_selection_cex :
    ((0 : Nat) ≤ (dshuffleMag [((0:ℚ), (0:ℚ)), (1, 0), (2, 0)]).length)
    ∧ (dshuffleTopk 0 (dshuffleMag [((0:ℚ), (0:ℚ)), (1, 0), (2, 0)])).length ≠ 0
    ∧ (dshuffleSpec (fun j => j + 1) 0 [((0:ℚ), (0:ℚ)), (1, 0), (2, 0)]).getD 1 (0, 0)
        ≠ [((0:ℚ), (0:ℚ)), (1, 0), (2, 0)].getD 1 (0, 0) := by decide

/-- C5 (amended): for `1 ≤ rate ≤ ⌊T/2⌋` (the number of non-DC one-sided
bins, i.e. the length of the magnitude vector) exactly `rate` distinct
spectral bins per feature column are selected as candidates, all of them
non-DC in-range bins; every bin outside the selected set — the DC bin 0
in particular — keeps its original spectral value in the modified
spectrum.  (The original claim also allowed `rate = 0`, refuted by the
counterexample: the python slice `[-0:]` selects everything.) -/
theorem shuffle_selection_bound (f : List (ℚ × ℚ)) (rate : Nat) (rch : Nat → Nat)
    (h1 : 1 ≤ rate) (h2 : rate ≤ (dshuffleMag f).length) :
    (dshuffleTopk rate (dshuffleMag f)).length = rate
    ∧ (dshuffleTopk rate (dshuffleMag f)).Nodup
    ∧ (∀ t ∈ dshuffleTopk rate (dshuffleMag f), 1 ≤ t ∧ t < f.length)
    ∧ (∀ j, j ∉ dshuffleTopk rate (dshuffleMag f) →
        (dshuffleSpec rch rate f).getD j (0, 0) = f.getD j (0, 0))
    ∧ (dshuffleSpec rch rate f).getD 0 (0, 0) = f.getD 0 (0, 0) := by
  have hmaglen : (dshuffleMag f).length = f.length - 1 := by simp [dshuffleMag]
  have hperm : (argsortAsc (dshuffleMag f)).Perm (List.range (dshuffleMag f).length) :=
    List.perm_insertionSort _ _
  have hsortlen : (argsortAsc (dshuffleMag f)).length = (dshuffleMag f).length := by
    rw [hperm.length_eq, List.length_range]
  have hratene : rate ≠ 0 := Nat.one_le_iff_ne_zero.mp h1
  have hslice : lastSlice rate (argsortAsc (dshuffleMag f))
      = (argsortAsc (dshuffleMag f)).drop ((argsortAsc (dshuffleMag f)).length - rate) := by
    rw [lastSlice, if_neg hratene]
  have hslicelen : (lastSlice rate (argsortAsc (dshuffleMag f))).length = rate := by
    rw [hslice, List.length_drop, hsortlen]
    omega
  have hlen : (dshuffleTopk rate (dshuffleMag f)).length = rate := by
    rw [dshuffleTopk, List.length_map, hslicelen]
  have hnodup : (dshuffleTopk rate (dshuffleMag f)).Nodup := by
    apply List.Nodup.map
    · intro x y hxy
      simpa using hxy
    · rw [hslice]
      exact List.Nodup.sublist (List.drop_sublist _ _)
        (hperm.nodup_iff.mpr (List.nodup_range _))
  have hmem : ∀ t ∈ dshuffleTopk rate (dshuffleMag f), 1 ≤ t ∧ t < f.length := by
    intro t ht
    rcases List.mem_map.mp ht with ⟨i, hi, rfl⟩
    rw [hslice] at hi
    have hi2 : i ∈ List.range (dshuffleMag f).length :=
      hperm.mem_iff.mp (List.Sublist.mem hi (List.drop_sublist _ _))
    have hi3 : i < (dshuffleMag f).length := List.mem_range.mp hi2
    show 1 ≤ i + 1 ∧ i + 1 < f.length
    omega
  have hunch : ∀ j, j ∉ dshuffleTopk rate (dshuffleMag f) →
      (dshuffleSpec rch rate f).getD j (0, 0) = f.getD j (0, 0) := by
    intro j hj
    apply foldl_set_getD_of_ne
    intro x hx
    have hx' : x < (dshuffleTopk rate (dshuffleMag f)).length := List.mem_range.mp hx
    intro hcontra
    exact hj (hcontra ▸ getD_mem_of_lt _ _ hx')
  refine ⟨hlen, hnodup, hmem, hunch, hunch 0 ?_⟩
  intro h0
  exact absurd (hmem 0 h0).1 (by omega)

/-- Witness for C5 (amended): rate 1 on a spectrum with two non-DC bins
selects exactly one candidate bin. -/
theorem shuffle_selection_bound_witness :
    (1 ≤ 1 ∧ 1 ≤ (dshuffleMag [((0:ℚ), (0:ℚ)), (1, 0), (2, 0)]).length)
    ∧ (dshuffleTopk 1 (dshuffleMag [((0:ℚ), (0:ℚ)), (1, 0), (2, 0)])).length = 1 :=
  ⟨⟨by decide, by decide⟩,
   (shuffle_selection_bound [((0:ℚ), (0:ℚ)), (1, 0), (2, 0)] 1 (fun j => j)
     (by decide) (by decide)).1⟩

/-- C6: in the shuffle loop every selected bin's final value comes from
the ORIGINAL spectrum at some index of the selected set itself (sampling
with replacement: the replacement may be the bin itself, so a bin may
keep its own value); since every replacement reads the original spectrum
and writes into a copy, no overwritten bin's new value is ever read as a
source for another replacement. -/
theorem shuffle_replacement_within_selected (f : List (ℚ × ℚ)) (rate : Nat)
    (rch : Nat → Nat) (idx : Nat) (h : idx ∈ dshuffleTopk rate (dshuffleMag f)) :
    ∃ r ∈ dshuffleTopk rate (dshuffleMag f),
      (dshuffleSpec rch rate f).getD idx (0, 0) = f.getD r (0, 0) := by
  rcases foldl_set_getD_cases
      (fun j => (dshuffleTopk rate (dshuffleMag f)).getD j 0)
      (fun j => f.getD ((dshuffleTopk rate (dshuffleMag f)).getD
        (rch j % (dshuffleTopk rate (dshuffleMag f)).length) 0) (0, 0))
      (List.range (dshuffleTopk rate (dshuffleMag f)).length) f idx (0, 0)
    with hc | ⟨j, hj, hgj, hval⟩
  · exact ⟨idx, h, hc⟩
  · have hpos : 0 < (dshuffleTopk rate (dshuffleMag f)).length :=
      List.length_pos.mpr (List.ne_nil_of_mem h)
    exact ⟨_, getD_mem_of_lt _ _ (Nat.mod_lt _ hpos), hval⟩

/-- Witness for C6: on the spectrum `[(0,0), (1,0), (2,0)]` with rate 1,
the selected bin 2 ends with a value drawn from the selected set. -/
theorem shuffle_replacement_within_selected_witness :
    (2 ∈ dshuffleTopk 1 (dshuffleMag [((0:ℚ), (0:ℚ)), (1, 0), (2, 0)]))
    ∧ ∃ r ∈ dshuffleTopk 1 (dshuffleMag [((0:ℚ), (0:ℚ)), (1, 0), (2, 0)]),
        (dshuffleSpec (fun _ => 0) 1 [((0:ℚ), (0:ℚ)), (1, 0), (2, 0)]).getD 2 (0, 0)
          = [((0:ℚ), (0:ℚ)), (1, 0), (2, 0)].getD r (0, 0) :=
  ⟨by decide,
   shuffle_replacement_within_selected [((0:ℚ), (0:ℚ)), (1, 0), (2, 0)] 1
     (fun _ => 0) 2 (by decide)⟩

theorem shape_op (a : Arr) (f : Nat → List ℚ → List ℚ) (off : ℚ) (lo hi : Option ℚ)
    (hf : ∀ i, i < (toCols a).length → (f i ((toCols a).getD i [])).length = rows a) :
    (restore a (postCols off lo hi (mapCols f (toCols a)))).shape = a.shape := by
  apply shape_restore
  · rw [length_postCols, length_mapCols]
  · intro c hc
    rcases mem_postCols hc with ⟨c0, hc0, rfl⟩
    rcases mem_mapCols hc0 with ⟨i, hi, rfl⟩
    rw [List.length_map]
    exact hf i hi

/-- C1: under the documented external contracts (`irfft(_, n)` returns
length `n`; the EMD solver returns mode arrays of the column's length;
`waverec` reconstructions are at least `T` long; a non-empty rate list),
every operator preserves the input shape exactly: rank-1 length-T in,
rank-1 length-T out; rank-2 (T, F) in, rank-2 (T, F) out — for the
two-signal operators on equal-shaped inputs. -/
theorem shape_preservation
    (rfft : List ℚ → List (ℚ × ℚ)) (irfft : List (ℚ × ℚ) → Nat → List ℚ)
    (rch : Nat → Nat → Nat)
    (emdS : List ℚ → Nat → List (List ℚ)) (u1 : Nat → ℚ) (rw : Nat → Nat → ℚ)
    (ext : WaveExt) (f32 : ℚ → ℚ) (u2 u3 : Nat → Nat → Nat → ℚ)
    (lam alpha mix_rate rwp imf_rate offset : ℚ) (lo hi : Option ℚ)
    (rate n_imf level : Nat) (rates : List ℚ) (wavelet : String)
    (input_dtype : DType) (a b : Arr)
    (hirfft : ∀ v n, (irfft v n).length = n)
    (hemd : ∀ s k, ∀ m ∈ emdS s k, m.length = s.length)
    (hrates : rates ≠ [])
    (hrec : ∀ cs, rows a ≤ (ext.waverec cs wavelet).length)
    (ha : a.Wf) (hb : b.Wf) :
    (dominant_shuffle rfft irfft rch a rate lo hi offset).shape = a.shape
    ∧ (emd_augmentation emdS u1 rw a n_imf rwp imf_rate lo hi offset).shape = a.shape
    ∧ (a.shape = b.shape →
        ∃ out, mix_augmentation lam a b alpha mix_rate lo hi offset = .ok out
          ∧ out.shape = a.shape)
    ∧ (∃ o, WaveAug.augment ext f32 u2 input_dtype a rates wavelet level = .ok o
        ∧ o.2.shape = a.shape)
    ∧ (a.shape = b.shape →
        ∃ o, WaveAug.augment_multi ext f32 u3 input_dtype a b rates wavelet level = .ok o
          ∧ o.2.shape = a.shape) := by
  refine ⟨?_, ?_, ?_, ?_, ?_⟩
  · exact shape_op a _ offset lo hi (fun i _ => hirfft _ _)
  · apply shape_op a _ offset lo hi
    intro i hi
    rw [emdCol_length _ _ _ _ _ _ _ (hemd _ _)]
    exact wf_col_len ha _ (getD_mem_of_lt _ _ hi)
  · intro hshape
    unfold mix_augmentation
    rw [if_pos hshape]
    refine ⟨_, rfl, ?_⟩
    apply shape_restore
    · rw [length_postCols, List.length_map, List.length_zip,
        toCols_length_eq_of_shape hshape, min_self]
    · intro c hc
      rcases mem_postCols hc with ⟨c0, hc0, rfl⟩
      rcases List.mem_map.mp hc0 with ⟨p, hp, rfl⟩
      rw [List.length_map]
      apply mixCol_length
      · exact wf_col_len ha _ (List.of_mem_zip hp).1
      · rw [rows_eq_of_shape hshape]
        exact wf_col_len hb _ (List.of_mem_zip hp).2
      · rw [rows_eq_shape_headD]
        exact pySliceLen_le _ _
  · have hex : ∀ i ∈ List.range (toCols a).length, ∃ out,
        WaveAug.augmentCol ext f32 (u2 i) rates wavelet level (rows a)
          ((toCols a).getD i []) = .ok out := by
      intro i _
      rcases augmentCol_ok ext f32 (u2 i) rates wavelet level (rows a)
        ((toCols a).getD i []) hrates hrec with ⟨out, hout, _⟩
      exact ⟨out, hout⟩
    rcases mapE_ok_exists _ _ hex with ⟨bs, hbs, hlen, hmem⟩
    refine ⟨(DType.float32, restore a bs), ?_, ?_⟩
    · unfold WaveAug.augment
      rw [hbs]
    · show (restore a bs).shape = a.shape
      apply shape_restore
      · rw [hlen, List.length_range]
      · intro c hc
        rcases hmem c hc with ⟨i, _, hcol⟩
        rcases augmentCol_ok ext f32 (u2 i) rates wavelet level (rows a)
          ((toCols a).getD i []) hrates hrec with ⟨out, hout, houtlen, _⟩
        rw [hout] at hcol
        cases hcol
        exact houtlen
  · intro hshape
    have hex : ∀ i ∈ List.range (toCols a).length, ∃ out,
        WaveAug.augmentMultiCol ext f32 (u3 i) rates wavelet level (rows a)
          ((toCols a).getD i []) ((toCols b).getD i []) = .ok out := by
      intro i _
      rcases augmentMultiCol_ok ext f32 (u3 i) rates wavelet level (rows a)
        ((toCols a).getD i []) ((toCols b).getD i []) hrates hrec with ⟨out, hout, _⟩
      exact ⟨out, hout⟩
    rcases mapE_ok_exists _ _ hex with ⟨bs, hbs, hlen, hmem⟩
    refine ⟨(DType.float32, restore a bs), ?_, ?_⟩
    · unfold WaveAug.augment_multi
      rw [if_pos hshape, hbs]
    · show (restore a bs).shape = a.shape
      apply shape_restore
      · rw [hlen, List.length_range]
      · intro c hc
        rcases hmem c hc with ⟨i, _, hcol⟩
        rcases augmentMultiCol_ok ext f32 (u3 i) rates wavelet level (rows a)
          ((toCols a).getD i []) ((toCols b).getD i []) hrates hrec
          with ⟨out, hout, houtlen, _⟩
        rw [hout] at hcol
        cases hcol
        exact houtlen

/-- Witness for C1: concrete rank-1 signals of length 2 run through
trivial externals satisfying the contracts; every operator's output
shape equals the input shape. -/
theorem shape_preservation_witness :
    ([(1:ℚ)/2] ≠ ([] : List ℚ))
    ∧ ((dominant_shuffle (fun v => List.replicate (v.length / 2 + 1) ((0:ℚ), (0:ℚ)))
          (fun _ n => List.replicate n 0) (fun _ _ => 0) (Arr.r1 [1, 2]) 4
          none none 0).shape = (Arr.r1 [(1:ℚ), 2]).shape
      ∧ (emd_augmentation (fun _ _ => []) (fun _ => 0) (fun _ _ => 0)
          (Arr.r1 [1, 2]) 10 0 1 none none 0).shape = (Arr.r1 [(1:ℚ), 2]).shape
      ∧ ((Arr.r1 [(1:ℚ), 2]).shape = (Arr.r1 [(3:ℚ), 4]).shape →
          ∃ out, mix_augmentation 0 (Arr.r1 [1, 2]) (Arr.r1 [3, 4]) 0 0 none none 0
              = .ok out ∧ out.shape = (Arr.r1 [(1:ℚ), 2]).shape)
      ∧ (∃ o, WaveAug.augment ⟨fun s _ _ => [s], fun _ _ => [0, 0, 0]⟩ (fun x => x)
            (fun _ _ _ => 0) DType.float64 (Arr.r1 [1, 2]) [1/2] "db1" 2 = .ok o
          ∧ o.2.shape = (Arr.r1 [(1:ℚ), 2]).shape)
      ∧ ((Arr.r1 [(1:ℚ), 2]).shape = (Arr.r1 [(3:ℚ), 4]).shape →
          ∃ o, WaveAug.augment_multi ⟨fun s _ _ => [s], fun _ _ => [0, 0, 0]⟩ (fun x => x)
              (fun _ _ _ => 0) DType.float64 (Arr.r1 [1, 2]) (Arr.r1 [3, 4]) [1/2] "db1" 2
              = .ok o ∧ o.2.shape = (Arr.r1 [(1:ℚ), 2]).shape)) :=
  ⟨by decide,
   shape_preservation (fun v => List.replicate (v.length / 2 + 1) ((0:ℚ), (0:ℚ)))
     (fun _ n => List.replicate n 0) (fun _ _ => 0) (fun _ _ => []) (fun _ => 0)
     (fun _ _ => 0) ⟨fun s _ _ => [s], fun _ _ => [0, 0, 0]⟩ (fun x => x)
     (fun _ _ _ => 0) (fun _ _ _ => 0) 0 0 0 0 1 0 none none 4 10 2 [1/2] "db1"
     DType.float64 (Arr.r1 [1, 2]) (Arr.r1 [3, 4])
     (by intro v n; simp) (by intro s k m hm; cases hm) (by decide)
     (by intro cs; show 2 ≤ 3; decide) (by decide) (by decide)⟩

/-- Witness for C3: the spec's concrete error scenario — mixing a (5,2)
zero array with a (3,2) zero array raises the shape-mismatch error. -/
theorem shape_mismatch_errors_witness :
    mix_augmentation 0 (Arr.r2 [List.replicate 5 0, List.replicate 5 0])
      (Arr.r2 [List.replicate 3 0, List.replicate 3 0]) 0 0 none none 0
      = .error .shapeMismatch :=
  (shape_mismatch_errors 0 0 0 0 none none ⟨fun s _ _ => [s], fun _ _ => []⟩
    (fun x => x) (fun _ _ _ => 0) DType.float64 [] "db1" 2
    (Arr.r1 []) (Arr.r1 [])).2.2
